import Mathlib

/-!
# Verification of `AES256Cipher` (packages/core/src/cipher/AES256Cipher.ts)

A shallow embedding of the `AES256Cipher` class: `encrypt` / `decrypt` with
the envelope layout `IV (16 bytes) || ciphertext`, SHA-256 key derivation
from a `string | Uint8Array` DEK, and AES-256-CBC with PKCS7 padding.

The source delegates the block cipher and the hash to the platform crypto
module (`createCipheriv('aes-256-cbc', ...)`, `createHash('sha256')`,
`randomBytes`).  Those primitives are not part of the repository, so the
embedding is parametrized by an abstract `Engine` carrying a block
encryption/decryption pair and a hash, subject to the interface properties
the platform guarantees (`EngineSpec`): the block maps are mutually inverse
and length-preserving on 16-byte blocks and the hash always produces
32 bytes.  CBC chaining and PKCS7 padding — the observable semantics of
`createCipheriv` / `createDecipheriv` in `aes-256-cbc` mode — are embedded
concretely.  The random IV drawn by `encrypt` (`randomBytes(16)`) is passed
as an explicit argument, standard state-passing for the entropy source.

Bytes are modelled as `Nat` (the source's `Uint8Array` entries), byte
sequences as `List Nat`.
-/

/-- The block size of AES-CBC: `AES256Cipher.IV_LENGTH = 16`. -/
def ivLength : Nat := 16

/-- The `dek : string | Uint8Array` union type of the source, as a tagged
variant: textual key material or raw byte key material. -/
inductive DEK where
  | text (s : String)
  | bytes (b : List Nat)
deriving DecidableEq, Repr

/-- The error taxonomy of the component (spec §7): the source throws
`Error` objects whose message distinguishes the three kinds. -/
inductive CipherError where
  | invalidInput (msg : String)
  | encryptionFailed (msg : String)
  | decryptionFailed (msg : String)
deriving DecidableEq, Repr

/-- The one generic decryption-failure message of the source (line 161). -/
def decryptFailMsg : String := "Decryption failed: Wrong key or tampered data"

/-- UTF-8 encoding of a single scalar value, the byte semantics of
`Buffer.from(dek, 'utf-8')` for one character. -/
def utf8Char (c : Char) : List Nat :=
  let n := c.toNat
  if n < 0x80 then [n]
  else if n < 0x800 then
    [0xC0 ||| (n >>> 6), 0x80 ||| (n &&& 0x3F)]
  else if n < 0x10000 then
    [0xE0 ||| (n >>> 12), 0x80 ||| ((n >>> 6) &&& 0x3F), 0x80 ||| (n &&& 0x3F)]
  else
    [0xF0 ||| (n >>> 18), 0x80 ||| ((n >>> 12) &&& 0x3F),
     0x80 ||| ((n >>> 6) &&& 0x3F), 0x80 ||| (n &&& 0x3F)]

/-- UTF-8 encoding of a string: `Buffer.from(s, 'utf-8')`. -/
def utf8Bytes (s : String) : List Nat :=
  (s.data.map utf8Char).flatten

/-- The emptiness test the source performs on the DEK:
`!dek || (typeof dek === 'string' && dek.length === 0) ||
 (dek instanceof Uint8Array && dek.length === 0)`. -/
def dekEmpty : DEK → Bool
  | .text s => s.length == 0
  | .bytes b => b.length == 0

/-- `deriveKey` line 45: normalize the DEK to bytes
(`typeof dek === 'string' ? Buffer.from(dek, 'utf-8') : Buffer.from(dek)`). -/
def normalizeDek : DEK → List Nat
  | .text s => utf8Bytes s
  | .bytes b => b

/-- The platform crypto primitives the source imports from `crypto`:
an AES-256 block encryption/decryption pair (the core of
`createCipheriv` / `createDecipheriv` in `aes-256-cbc` mode) and a hash
(`createHash('sha256')`). -/
structure Engine where
  enc : List Nat → List Nat → List Nat
  dec : List Nat → List Nat → List Nat
  hash : List Nat → List Nat

/-- The interface contract of the platform primitives (spec §6, "required
external collaborators"): block decryption inverts block encryption,
both are 16-byte-block maps, and the hash output is 256 bits. -/
structure EngineSpec (E : Engine) : Prop where
  dec_enc : ∀ k b, b.length = 16 → E.dec k (E.enc k b) = b
  enc_len : ∀ k b, b.length = 16 → (E.enc k b).length = 16
  dec_len : ∀ k b, b.length = 16 → (E.dec k b).length = 16
  hash_len : ∀ m, (E.hash m).length = 32

/-- Pointwise XOR of two byte sequences (CBC block combination). -/
def xorBytes (a b : List Nat) : List Nat :=
  List.zipWith (fun x y => x ^^^ y) a b

/-- Split a byte sequence into consecutive 16-byte blocks (fuel-indexed so
that the recursion is structural; `fuel` bounds the number of blocks). -/
def chunksAux : Nat → List Nat → List (List Nat)
  | 0, _ => []
  | _ + 1, [] => []
  | fuel + 1, l => l.take 16 :: chunksAux fuel (l.drop 16)

/-- Split a byte sequence into consecutive 16-byte blocks. -/
def chunks16 (l : List Nat) : List (List Nat) :=
  chunksAux l.length l

/-- PKCS7 padding (RFC 5652, spec glossary): append `b = 16 - len % 16`
bytes each equal to `b`; a full extra block when `len` is block-aligned. -/
def pkcs7Pad (data : List Nat) : List Nat :=
  let b := 16 - data.length % 16
  data ++ List.replicate b b

/-- PKCS7 padding validation and removal: read the final byte `b`, require
`1 ≤ b ≤ 16` and that the last `b` bytes all equal `b`; strip them.
This is the padding check `decipher.final()` performs (OpenSSL rejects a
pad byte of 0, a pad byte exceeding the block size, and any padding byte
that differs from the count). -/
def pkcs7Unpad (l : List Nat) : Option (List Nat) :=
  match l.getLast? with
  | none => none
  | some b =>
    if 1 ≤ b ∧ b ≤ 16 ∧ ((l.drop (l.length - b)).all fun x => x == b)
    then some (l.take (l.length - b))
    else none

/-- CBC encryption of a list of plaintext blocks: each block is XORed with
the previous ciphertext block (the IV for the first) and block-encrypted. -/
def cbcEncBlocks (E : Engine) (key : List Nat) : List Nat → List (List Nat) → List (List Nat)
  | _, [] => []
  | prev, b :: bs =>
    let c := E.enc key (xorBytes prev b)
    c :: cbcEncBlocks E key c bs

/-- CBC decryption of a list of ciphertext blocks: each block is
block-decrypted and XORed with the previous ciphertext block (the IV for
the first). -/
def cbcDecBlocks (E : Engine) (key : List Nat) : List Nat → List (List Nat) → List (List Nat)
  | _, [] => []
  | prev, c :: cs =>
    xorBytes prev (E.dec key c) :: cbcDecBlocks E key c cs

/-- The ciphertext `createCipheriv('aes-256-cbc', key, iv)` produces on
`data` (lines 89-93): PKCS7-pad, then CBC-encrypt block by block. -/
def nodeCbcEncrypt (E : Engine) (key iv data : List Nat) : List Nat :=
  (cbcEncBlocks E key iv (chunks16 (pkcs7Pad data))).flatten

/-- The plaintext `createDecipheriv('aes-256-cbc', key, iv)` recovers from
`ct` (lines 151-155): reject a length that is not a multiple of the block
size (`final()` throws), CBC-decrypt block by block, validate and strip the
PKCS7 padding (`final()` throws on a mismatch).  `none` models the throw. -/
def nodeCbcDecrypt (E : Engine) (key iv ct : List Nat) : Option (List Nat) :=
  if ct.length % 16 = 0 then
    pkcs7Unpad (cbcDecBlocks E key iv (chunks16 ct)).flatten
  else none

/-- `deriveKey` lines 44-47: SHA-256 of the normalized DEK bytes. -/
def deriveKey (E : Engine) (dek : DEK) : List Nat :=
  E.hash (normalizeDek dek)

/-- `encrypt` lines 70-104.  The two input validations (lines 72-79), then
key derivation, CBC encryption under the supplied random IV, and the
envelope `IV || ciphertext` (line 97).  The `try`/`catch` that wraps engine
failures as `Encryption failed: ...` has no failing path here because the
embedded engine is total, so the success branch is always taken. -/
def encrypt (E : Engine) (data : List Nat) (dek : DEK) (iv : List Nat) :
    Except CipherError (List Nat) :=
  if data.length = 0 then
    .error (.invalidInput "Data to encrypt cannot be empty")
  else if dekEmpty dek then
    .error (.invalidInput "DEK (Data Encryption Key) cannot be empty")
  else
    let key := deriveKey E dek
    .ok (iv ++ nodeCbcEncrypt E key iv data)

/-- `decrypt` lines 127-163.  The two input validations (lines 129-136),
then IV/ciphertext split (lines 142-145), key derivation, and CBC
decryption; any throw inside the `try` block is caught and rethrown as the
one generic `DecryptionFailed` error (lines 158-162). -/
def decrypt (E : Engine) (encryptedData : List Nat) (dek : DEK) :
    Except CipherError (List Nat) :=
  if encryptedData.length ≤ ivLength then
    .error (.invalidInput "Encrypted data is too short or empty (must be > 16 bytes)")
  else if dekEmpty dek then
    .error (.invalidInput "DEK (Data Encryption Key) cannot be empty")
  else
    let iv := encryptedData.take ivLength
    let ciphertext := encryptedData.drop ivLength
    let key := deriveKey E dek
    match nodeCbcDecrypt E key iv ciphertext with
    | some plain => .ok plain
    | none => .error (.decryptionFailed decryptFailMsg)

/-! ## Basic lemmas about the building blocks -/

theorem xorBytes_length (a b : List Nat) :
    (xorBytes a b).length = min a.length b.length := by
  simp [xorBytes]

theorem xorBytes_cons (x y : Nat) (a b : List Nat) :
    xorBytes (x :: a) (y :: b) = (x ^^^ y) :: xorBytes a b := rfl

theorem xorBytes_cancel :
    ∀ (a b : List Nat), a.length = b.length → xorBytes a (xorBytes a b) = b
  | [], [], _ => rfl
  | [], _ :: _, h => by simp at h
  | _ :: _, [], h => by simp at h
  | x :: a, y :: b, h => by
    have ih := xorBytes_cancel a b (by simpa using h)
    rw [xorBytes_cons, xorBytes_cons, ih, ← Nat.xor_assoc, Nat.xor_self, Nat.zero_xor]

theorem chunksAux_flatten :
    ∀ (fuel : Nat) (l : List Nat), l.length ≤ fuel → (chunksAux fuel l).flatten = l
  | 0, l, h => by
    have : l = [] := List.length_eq_zero.mp (Nat.le_zero.mp h)
    subst this; rfl
  | fuel + 1, [], _ => rfl
  | fuel + 1, x :: xs, h => by
    have hlen : (List.drop 16 (x :: xs)).length ≤ fuel := by
      simp only [List.length_drop, List.length_cons] at *
      omega
    simp only [chunksAux, List.flatten_cons, chunksAux_flatten fuel _ hlen,
      List.take_append_drop]

theorem chunks16_flatten (l : List Nat) : (chunks16 l).flatten = l :=
  chunksAux_flatten l.length l (Nat.le_refl _)

theorem chunksAux_all_length :
    ∀ (fuel : Nat) (l : List Nat), l.length ≤ fuel → l.length % 16 = 0 →
      ∀ b ∈ chunksAux fuel l, b.length = 16
  | 0, _, _, _ => by intro b hb; simp [chunksAux] at hb
  | fuel + 1, [], _, _ => by intro b hb; simp [chunksAux] at hb
  | fuel + 1, x :: xs, h, hm => by
    intro b hb
    have h16 : 16 ≤ (x :: xs).length := by
      simp only [List.length_cons] at *
      omega
    simp only [chunksAux, List.mem_cons] at hb
    rcases hb with rfl | hb
    · simp only [List.length_take]
      omega
    · refine chunksAux_all_length fuel _ ?_ ?_ b hb <;>
        simp only [List.length_drop, List.length_cons] at * <;> omega

theorem chunks16_all_length (l : List Nat) (hm : l.length % 16 = 0) :
    ∀ b ∈ chunks16 l, b.length = 16 :=
  chunksAux_all_length l.length l (Nat.le_refl _) hm

theorem chunksAux_of_blocks :
    ∀ (bs : List (List Nat)) (fuel : Nat), (∀ b ∈ bs, b.length = 16) →
      bs.flatten.length ≤ fuel → chunksAux fuel bs.flatten = bs
  | [], fuel, _, _ => by cases fuel <;> rfl
  | b :: bs, fuel, hall, hfuel => by
    have hb : b.length = 16 := hall b (List.mem_cons_self ..)
    have hrest : ∀ x ∈ bs, x.length = 16 := fun x hx => hall x (List.mem_cons_of_mem _ hx)
    have hflat : (b :: bs).flatten = b ++ bs.flatten := rfl
    have hpos : 1 ≤ (b :: bs).flatten.length := by
      rw [hflat]; simp only [List.length_append, hb]; omega
    obtain ⟨f, rfl⟩ : ∃ f, fuel = f + 1 := by
      cases fuel
      · omega
      · exact ⟨_, rfl⟩
    have hne : (b :: bs).flatten ≠ [] := by
      intro hcon; rw [hcon] at hpos; simp at hpos
    have hstep : chunksAux (f + 1) (b :: bs).flatten =
        (b :: bs).flatten.take 16 :: chunksAux f ((b :: bs).flatten.drop 16) := by
      rcases hx : (b :: bs).flatten with _ | ⟨y, ys⟩
      · exact absurd hx hne
      · rfl
    rw [hstep, hflat, List.take_left' hb, List.drop_left' hb]
    have : bs.flatten.length ≤ f := by
      rw [hflat] at hfuel
      simp only [List.length_append, hb] at hfuel
      omega
    rw [chunksAux_of_blocks bs f hrest this]

theorem chunks16_of_blocks (bs : List (List Nat)) (hall : ∀ b ∈ bs, b.length = 16) :
    chunks16 bs.flatten = bs :=
  chunksAux_of_blocks bs bs.flatten.length hall (Nat.le_refl _)

/-! ## PKCS7 padding lemmas -/

theorem pkcs7Pad_length (d : List Nat) :
    (pkcs7Pad d).length = d.length + (16 - d.length % 16) := by
  simp [pkcs7Pad]

theorem pkcs7Pad_length_mod (d : List Nat) : (pkcs7Pad d).length % 16 = 0 := by
  rw [pkcs7Pad_length]
  omega

theorem pkcs7Pad_ne_nil (d : List Nat) : pkcs7Pad d ≠ [] := by
  intro h
  have := congrArg List.length h
  rw [pkcs7Pad_length] at this
  simp at this
  omega

theorem pkcs7Unpad_pad (d : List Nat) : pkcs7Unpad (pkcs7Pad d) = some d := by
  have hb : 1 ≤ 16 - d.length % 16 ∧ 16 - d.length % 16 ≤ 16 := by omega
  set b := 16 - d.length % 16 with hbdef
  obtain ⟨m, hm⟩ : ∃ m, b = m + 1 := ⟨b - 1, by omega⟩
  have hsplit : pkcs7Pad d = (d ++ List.replicate m b) ++ [b] := by
    simp only [pkcs7Pad, ← hbdef, hm, List.replicate_succ', List.append_assoc]
  have hlast : (pkcs7Pad d).getLast? = some b := by
    rw [hsplit]; exact List.getLast?_concat _
  have hlen : (pkcs7Pad d).length - b = d.length := by
    rw [pkcs7Pad_length, ← hbdef]; omega
  have hdrop : (pkcs7Pad d).drop (d.length) = List.replicate b b := by
    have : pkcs7Pad d = d ++ List.replicate b b := by simp [pkcs7Pad, ← hbdef]
    rw [this, List.drop_left]
  have htake : (pkcs7Pad d).take (d.length) = d := by
    have : pkcs7Pad d = d ++ List.replicate b b := by simp [pkcs7Pad, ← hbdef]
    rw [this, List.take_left]
  rw [pkcs7Unpad, hlast]
  simp only [hlen, hdrop, htake]
  have hall : (List.replicate b b).all (fun x => x == b) = true := by
    simp [List.all_eq_true, List.eq_of_mem_replicate]
  rw [if_pos ⟨hb.1, hb.2, hall⟩]

/-! ## CBC lemmas -/

theorem cbcEncBlocks_all_length (E : Engine) (hE : EngineSpec E) (key : List Nat) :
    ∀ (bs : List (List Nat)) (prev : List Nat), prev.length = 16 →
      (∀ b ∈ bs, b.length = 16) →
      ∀ c ∈ cbcEncBlocks E key prev bs, c.length = 16
  | [], _, _, _ => by intro c hc; simp [cbcEncBlocks] at hc
  | b :: bs, prev, hprev, hall => by
    intro c hc
    have hb : b.length = 16 := hall b (List.mem_cons_self ..)
    have hxor : (xorBytes prev b).length = 16 := by
      rw [xorBytes_length, hprev, hb]; exact Nat.min_self 16
    have henc : (E.enc key (xorBytes prev b)).length = 16 := hE.enc_len _ _ hxor
    simp only [cbcEncBlocks, List.mem_cons] at hc
    rcases hc with rfl | hc
    · exact henc
    · exact cbcEncBlocks_all_length E hE key bs _ henc
        (fun x hx => hall x (List.mem_cons_of_mem _ hx)) c hc

theorem cbcEncBlocks_length (E : Engine) (key : List Nat) :
    ∀ (bs : List (List Nat)) (prev : List Nat),
      (cbcEncBlocks E key prev bs).length = bs.length
  | [], _ => rfl
  | _ :: bs, _ => by
    simp only [cbcEncBlocks, List.length_cons, cbcEncBlocks_length E key bs]

theorem cbcDecBlocks_cbcEncBlocks (E : Engine) (hE : EngineSpec E) (key : List Nat) :
    ∀ (bs : List (List Nat)) (prev : List Nat), prev.length = 16 →
      (∀ b ∈ bs, b.length = 16) →
      cbcDecBlocks E key prev (cbcEncBlocks E key prev bs) = bs
  | [], _, _, _ => rfl
  | b :: bs, prev, hprev, hall => by
    have hb : b.length = 16 := hall b (List.mem_cons_self ..)
    have hxor : (xorBytes prev b).length = 16 := by
      rw [xorBytes_length, hprev, hb]; exact Nat.min_self 16
    have henc : (E.enc key (xorBytes prev b)).length = 16 := hE.enc_len _ _ hxor
    simp only [cbcEncBlocks, cbcDecBlocks, hE.dec_enc _ _ hxor]
    rw [xorBytes_cancel prev b (by rw [hprev, hb])]
    rw [cbcDecBlocks_cbcEncBlocks E hE key bs _ henc
      (fun x hx => hall x (List.mem_cons_of_mem _ hx))]

theorem flatten_length_of_blocks (bs : List (List Nat))
    (hall : ∀ b ∈ bs, b.length = 16) : bs.flatten.length = 16 * bs.length := by
  induction bs with
  | nil => rfl
  | cons b bs ih =>
    have hb : b.length = 16 := hall b (List.mem_cons_self ..)
    simp only [List.flatten_cons, List.length_append, List.length_cons, hb,
      ih (fun x hx => hall x (List.mem_cons_of_mem _ hx))]
    omega

/-! ## Pipeline lemmas -/

theorem pkcs7Pad_length_ge (d : List Nat) : 16 ≤ (pkcs7Pad d).length := by
  rw [pkcs7Pad_length]
  omega

theorem nodeCbcEncrypt_blocks_all_length (E : Engine) (hE : EngineSpec E)
    (key iv data : List Nat) (hiv : iv.length = 16) :
    ∀ c ∈ cbcEncBlocks E key iv (chunks16 (pkcs7Pad data)), c.length = 16 :=
  cbcEncBlocks_all_length E hE key _ iv hiv
    (chunks16_all_length _ (pkcs7Pad_length_mod data))

theorem nodeCbcEncrypt_length (E : Engine) (hE : EngineSpec E)
    (key iv data : List Nat) (hiv : iv.length = 16) :
    (nodeCbcEncrypt E key iv data).length = (pkcs7Pad data).length := by
  unfold nodeCbcEncrypt
  rw [flatten_length_of_blocks _ (nodeCbcEncrypt_blocks_all_length E hE key iv data hiv),
    cbcEncBlocks_length]
  have h := flatten_length_of_blocks (chunks16 (pkcs7Pad data))
    (chunks16_all_length _ (pkcs7Pad_length_mod data))
  rw [chunks16_flatten] at h
  omega

theorem nodeCbcDecrypt_nodeCbcEncrypt (E : Engine) (hE : EngineSpec E)
    (key iv data : List Nat) (hiv : iv.length = 16) :
    nodeCbcDecrypt E key iv (nodeCbcEncrypt E key iv data) = some data := by
  have hall := chunks16_all_length _ (pkcs7Pad_length_mod data)
  have hmod : (nodeCbcEncrypt E key iv data).length % 16 = 0 := by
    rw [nodeCbcEncrypt_length E hE key iv data hiv]
    exact pkcs7Pad_length_mod data
  rw [nodeCbcDecrypt, if_pos hmod]
  unfold nodeCbcEncrypt
  rw [chunks16_of_blocks _ (nodeCbcEncrypt_blocks_all_length E hE key iv data hiv),
    cbcDecBlocks_cbcEncBlocks E hE key _ iv hiv hall, chunks16_flatten,
    pkcs7Unpad_pad]

theorem encrypt_eq_ok (E : Engine) (data : List Nat) (dek : DEK) (iv : List Nat)
    (hd : data.length ≠ 0) (hk : dekEmpty dek = false) :
    encrypt E data dek iv = .ok (iv ++ nodeCbcEncrypt E (deriveKey E dek) iv data) := by
  rw [encrypt, if_neg hd, if_neg (by rw [hk]; exact Bool.false_ne_true)]

theorem decrypt_split (E : Engine) (env : List Nat) (dek : DEK)
    (hlen : 16 < env.length) (hk : dekEmpty dek = false) :
    decrypt E env dek =
      match nodeCbcDecrypt E (deriveKey E dek) (env.take 16) (env.drop 16) with
      | some plain => .ok plain
      | none => .error (.decryptionFailed decryptFailMsg) := by
  rw [decrypt, if_neg (by simp only [ivLength]; omega),
    if_neg (by rw [hk]; exact Bool.false_ne_true)]
  rfl

theorem decrypt_encrypt_cross (E : Engine) (hE : EngineSpec E) (data : List Nat)
    (k1 k2 : DEK) (iv : List Nat) (hk2 : dekEmpty k2 = false)
    (hiv : iv.length = 16) (hkey : deriveKey E k1 = deriveKey E k2) :
    decrypt E (iv ++ nodeCbcEncrypt E (deriveKey E k1) iv data) k2 = .ok data := by
  have hct : (nodeCbcEncrypt E (deriveKey E k1) iv data).length = (pkcs7Pad data).length :=
    nodeCbcEncrypt_length E hE _ iv data hiv
  have hpadlen := pkcs7Pad_length_ge data
  have henv : 16 < (iv ++ nodeCbcEncrypt E (deriveKey E k1) iv data).length := by
    rw [List.length_append, hiv]
    omega
  rw [decrypt_split E _ k2 henv hk2, List.take_left' hiv, List.drop_left' hiv, ← hkey,
    nodeCbcDecrypt_nodeCbcEncrypt E hE _ iv data hiv]

/-! ## A concrete engine instance

Used to evaluate the development on concrete inputs: a length-preserving,
invertible 16-byte block map (XOR with a key-derived stream) and a
32-byte hash, satisfying the `EngineSpec` interface of the platform
primitives. -/

/-- A 16-byte stream derived from the key (pad/truncate to 16). -/
def keyStream (k : List Nat) : List Nat :=
  (k ++ List.replicate 16 7).take 16

/-- Concrete engine instance: XOR block maps and a pad/truncate hash. -/
def xorEngine : Engine where
  enc := fun k b => xorBytes b (keyStream k)
  dec := fun k b => xorBytes b (keyStream k)
  hash := fun m => (m ++ List.replicate 32 0).take 32

theorem keyStream_length (k : List Nat) : (keyStream k).length = 16 := by
  simp only [keyStream, List.length_take, List.length_append, List.length_replicate]
  omega

theorem xorBytes_cancel_right :
    ∀ (a b : List Nat), a.length = b.length → xorBytes (xorBytes a b) b = a
  | [], [], _ => rfl
  | [], _ :: _, h => by simp at h
  | _ :: _, [], h => by simp at h
  | x :: a, y :: b, h => by
    have ih := xorBytes_cancel_right a b (by simpa using h)
    rw [xorBytes_cons, xorBytes_cons, ih, Nat.xor_assoc, Nat.xor_self, Nat.xor_zero]

theorem xorEngineSpec : EngineSpec xorEngine := by
  constructor
  · intro k b hb
    exact xorBytes_cancel_right b (keyStream k) (by rw [hb, keyStream_length])
  · intro k b hb
    simp only [xorEngine, xorBytes_length, hb, keyStream_length, Nat.min_self]
  · intro k b hb
    simp only [xorEngine, xorBytes_length, hb, keyStream_length, Nat.min_self]
  · intro m
    simp only [xorEngine, List.length_take, List.length_append, List.length_replicate]
    omega

/-! ## UTF-8 lemmas -/

theorem utf8Char_ne_nil (c : Char) : utf8Char c ≠ [] := by
  simp only [utf8Char]
  split
  · simp
  · split
    · simp
    · split <;> simp

theorem utf8Bytes_ne_nil (s : String) (h : s.length ≠ 0) : utf8Bytes s ≠ [] := by
  unfold utf8Bytes
  rcases hd : s.data with _ | ⟨c, cs⟩
  · exfalso
    apply h
    simp [String.length, hd]
  · simp only [List.map_cons, List.flatten_cons]
    intro hcon
    rcases List.append_eq_nil.mp hcon with ⟨h1, _⟩
    exact utf8Char_ne_nil c h1

/-! ## Reference formulation (spec wording) for the refinement claim

Independent formulations of CBC and PKCS7 removal following the spec text
(§4.1 decrypt algorithm, §6 collaborators, glossary), to be compared with
the embedding transcribed from the source. -/

/-- Reference CBC encryption, following the glossary: "each plaintext block
is combined with the previous ciphertext block (or the IV, for the first)
before encryption" — expressed as a scan from the IV. -/
def refCbcEncBlocks (E : Engine) (key iv : List Nat) (bs : List (List Nat)) :
    List (List Nat) :=
  (List.scanl (fun prev b => E.enc key (xorBytes prev b)) iv bs).tail

/-- Reference CBC decryption: each ciphertext block is block-decrypted and
combined with the preceding ciphertext block (the IV for the first) —
expressed as a pointwise zip of the block list with its predecessors. -/
def refCbcDecBlocks (E : Engine) (key iv : List Nat) (cs : List (List Nat)) :
    List (List Nat) :=
  List.zipWith (fun prev c => xorBytes prev (E.dec key c)) (iv :: cs) cs

/-- Reference PKCS7 removal, following the glossary: the last byte is the
pad count `b` with `1 ≤ b ≤ blockSize`, and the last `b` bytes are exactly
`b` copies of `b`. -/
def refUnpad (l : List Nat) : Option (List Nat) :=
  match l.getLast? with
  | none => none
  | some b =>
    if 1 ≤ b ∧ b ≤ 16 ∧ b ≤ l.length ∧ l.drop (l.length - b) = List.replicate b b
    then some (l.take (l.length - b))
    else none

/-- Reference AES-256-CBC/PKCS7 encryption of `data` under `(key, iv)`,
prefixed by the IV (spec §4.1 encrypt algorithm). -/
def refEncrypt (E : Engine) (key iv data : List Nat) : List Nat :=
  iv ++ (refCbcEncBlocks E key iv (chunks16 (pkcs7Pad data))).flatten

/-- Reference decryption composition (spec §4.1 decrypt algorithm): split
`envelope` into `iv = envelope[0:16]` and `ciphertext = envelope[16:]`,
derive `key` as the hash of the key-material bytes, CBC-decrypt (rejecting
a ciphertext that is not whole blocks), validate and strip the padding. -/
def refDecrypt (E : Engine) (envelope : List Nat) (dek : DEK) : Option (List Nat) :=
  let iv := envelope.take 16
  let ct := envelope.drop 16
  let key := E.hash (normalizeDek dek)
  if ct.length % 16 = 0 then
    refUnpad (refCbcDecBlocks E key iv (chunks16 ct)).flatten
  else none

theorem scanl_eq_head_cons {α β : Type} (f : β → α → β) (i : β) (l : List α) :
    List.scanl f i l = i :: (List.scanl f i l).tail := by
  cases l <;> simp [List.scanl]

theorem cbcEncBlocks_eq_ref (E : Engine) (key : List Nat) :
    ∀ (bs : List (List Nat)) (prev : List Nat),
      cbcEncBlocks E key prev bs = refCbcEncBlocks E key prev bs
  | [], _ => rfl
  | b :: bs, prev => by
    simp only [cbcEncBlocks, refCbcEncBlocks, List.scanl, List.tail_cons]
    rw [scanl_eq_head_cons]
    exact congrArg _ (cbcEncBlocks_eq_ref E key bs _)

theorem cbcDecBlocks_eq_ref (E : Engine) (key : List Nat) :
    ∀ (cs : List (List Nat)) (prev : List Nat),
      cbcDecBlocks E key prev cs = refCbcDecBlocks E key prev cs
  | [], _ => rfl
  | c :: cs, prev => by
    simp only [cbcDecBlocks, refCbcDecBlocks, List.zipWith_cons_cons]
    rw [cbcDecBlocks_eq_ref E key cs c]
    rfl

theorem pkcs7Unpad_eq_refUnpad (l : List Nat) (hmod : l.length % 16 = 0) :
    pkcs7Unpad l = refUnpad l := by
  rw [pkcs7Unpad, refUnpad]
  rcases hlast : l.getLast? with _ | b
  · rfl
  · have hne : l ≠ [] := by
      intro h
      rw [h] at hlast
      simp at hlast
    have hlen : 16 ≤ l.length := by
      have hpos : 0 < l.length := List.length_pos.mpr hne
      omega
    refine if_congr ?_ rfl rfl
    constructor
    · rintro ⟨h1, h2, h3⟩
      refine ⟨h1, h2, by omega, ?_⟩
      refine List.eq_replicate_iff.mpr ⟨?_, ?_⟩
      · rw [List.length_drop]
        omega
      · intro x hx
        simpa using List.all_eq_true.mp h3 x hx
    · rintro ⟨h1, h2, _, h4⟩
      refine ⟨h1, h2, ?_⟩
      rw [h4]
      simp [List.all_eq_true, List.eq_of_mem_replicate]

theorem cbcDecBlocks_all_length (E : Engine) (hE : EngineSpec E) (key : List Nat) :
    ∀ (cs : List (List Nat)) (prev : List Nat), prev.length = 16 →
      (∀ c ∈ cs, c.length = 16) →
      ∀ d ∈ cbcDecBlocks E key prev cs, d.length = 16
  | [], _, _, _ => by intro d hd; simp [cbcDecBlocks] at hd
  | c :: cs, prev, hprev, hall => by
    intro d hd
    have hc : c.length = 16 := hall c (List.mem_cons_self ..)
    simp only [cbcDecBlocks, List.mem_cons] at hd
    rcases hd with rfl | hd
    · rw [xorBytes_length, hprev, hE.dec_len key c hc]
      exact Nat.min_self 16
    · exact cbcDecBlocks_all_length E hE key cs c hc
        (fun x hx => hall x (List.mem_cons_of_mem _ hx)) d hd

theorem nodeCbcDecrypt_eq_ref (E : Engine) (hE : EngineSpec E)
    (key iv ct : List Nat) (hiv : iv.length = 16) :
    nodeCbcDecrypt E key iv ct = (if ct.length % 16 = 0 then
      refUnpad (refCbcDecBlocks E key iv (chunks16 ct)).flatten else none) := by
  rw [nodeCbcDecrypt]
  by_cases h : ct.length % 16 = 0
  · rw [if_pos h, if_pos h, ← cbcDecBlocks_eq_ref]
    refine pkcs7Unpad_eq_refUnpad _ ?_
    have hall := cbcDecBlocks_all_length E hE key (chunks16 ct) iv hiv
      (chunks16_all_length ct h)
    rw [flatten_length_of_blocks _ hall]
    omega
  · rw [if_neg h, if_neg h]

/-! ## Concrete inputs for witnesses -/

/-- A concrete 16-byte IV, standing for one output of the secure random
source. -/
def iv0 : List Nat := List.range 16

/-! ## Claims -/

/-- Claim C1: for every non-empty byte sequence `p` (all byte values
allowed), every non-empty key material `k` (text or bytes), and whatever
16-byte IV the secure random source supplied for that call,
`decrypt (encrypt p k) k` returns exactly `p`, for any platform engine
satisfying its interface contract. -/
theorem encrypt_decrypt_round_trip (E : Engine) (hE : EngineSpec E) (p : List Nat)
    (k : DEK) (iv : List Nat) (hp : p.length ≠ 0) (hk : dekEmpty k = false)
    (hiv : iv.length = 16) :
    (encrypt E p k iv).bind (fun env => decrypt E env k) = .ok p := by
  rw [encrypt_eq_ok E p k iv hp hk]
  exact decrypt_encrypt_cross E hE p k k iv hk hiv rfl

/-- Witness for C1 at a concrete plaintext, key and IV. -/
theorem encrypt_decrypt_round_trip_witness :
    (encrypt xorEngine [0, 255, 7] (DEK.text "test-key") iv0).bind
      (fun env => decrypt xorEngine env (DEK.text "test-key")) = .ok [0, 255, 7] :=
  encrypt_decrypt_round_trip xorEngine xorEngineSpec [0, 255, 7]
    (DEK.text "test-key") iv0 (by decide) (by decide) (by decide)

/-- Claim C3: the envelope produced by a successful `encrypt p k` has
length exactly `16 + 16 * ceil((len p + 1) / 16)` — strict PKCS7
semantics, with a full extra padding block when `len p` is a multiple
of 16. -/
theorem encrypt_length_law (E : Engine) (hE : EngineSpec E) (p : List Nat) (k : DEK)
    (iv : List Nat) (hp : p.length ≠ 0) (hk : dekEmpty k = false)
    (hiv : iv.length = 16) :
    ∃ env, encrypt E p k iv = .ok env ∧
      env.length = 16 + 16 * ((p.length + 1 + 15) / 16) := by
  refine ⟨_, encrypt_eq_ok E p k iv hp hk, ?_⟩
  rw [List.length_append, hiv, nodeCbcEncrypt_length E hE _ iv p hiv, pkcs7Pad_length]
  omega

/-- Witness for C3: the 13-byte plaintext "Hello, World!" with key
"test-key" yields a 32-byte envelope. -/
theorem encrypt_length_law_witness :
    ∃ env, encrypt xorEngine (utf8Bytes "Hello, World!") (DEK.text "test-key") iv0 =
      .ok env ∧ env.length = 32 := by
  obtain ⟨env, h1, h2⟩ := encrypt_length_law xorEngine xorEngineSpec
    (utf8Bytes "Hello, World!") (DEK.text "test-key") iv0 (by decide) (by decide)
    (by decide)
  refine ⟨env, h1, ?_⟩
  rw [h2]
  decide

/-- Claim C4: once the two input validations pass, every failure of
`decrypt` — invalid padding, wrong key, tampering, or a ciphertext length
that is not a multiple of 16 — is the single error kind `DecryptionFailed`
with the one generic message; the outcome is always either a success or
that exact error, and no other error is ever returned. -/
theorem decrypt_uniform_failure (E : Engine) (env : List Nat) (dek : DEK)
    (hlen : 16 < env.length) (hk : dekEmpty dek = false) :
    ((∃ p, decrypt E env dek = .ok p) ∨
      decrypt E env dek = .error (.decryptionFailed decryptFailMsg)) ∧
    ((env.length - 16) % 16 ≠ 0 →
      decrypt E env dek = .error (.decryptionFailed decryptFailMsg)) ∧
    (∀ e, decrypt E env dek = .error e → e = .decryptionFailed decryptFailMsg) := by
  rw [decrypt_split E env dek hlen hk]
  rcases hnd : nodeCbcDecrypt E (deriveKey E dek) (env.take 16) (env.drop 16) with _ | p
  · exact ⟨Or.inr rfl, fun _ => rfl, fun e he => (Except.error.inj he).symm⟩
  · refine ⟨Or.inl ⟨p, rfl⟩, fun hm => ?_, fun e he => ?_⟩
    · rw [nodeCbcDecrypt, if_neg (by rw [List.length_drop]; exact hm)] at hnd
      exact Option.noConfusion hnd
    · simp at he

/-- Witness for C4: a 17-byte envelope (ciphertext of 1 byte, not a
multiple of 16) fails with the generic `DecryptionFailed` error. -/
theorem decrypt_uniform_failure_witness :
    decrypt xorEngine (List.replicate 17 0) (DEK.text "k") =
      .error (.decryptionFailed decryptFailMsg) :=
  (decrypt_uniform_failure xorEngine (List.replicate 17 0) (DEK.text "k")
    (by decide) (by decide)).2.1 (by decide)

/-- Claim C6: `encrypt` fails with `InvalidInput` exactly when the
plaintext is empty or the key material is empty, with a distinct message
per violated precondition, and such a failure is never reported as
`EncryptionFailed`. -/
theorem encrypt_invalid_input (E : Engine) (p : List Nat) (dek : DEK) (iv : List Nat) :
    ((∃ msg, encrypt E p dek iv = .error (.invalidInput msg)) ↔
      (p.length = 0 ∨ dekEmpty dek = true)) ∧
    (p.length = 0 →
      encrypt E p dek iv = .error (.invalidInput "Data to encrypt cannot be empty")) ∧
    (p.length ≠ 0 → dekEmpty dek = true →
      encrypt E p dek iv = .error (.invalidInput "DEK (Data Encryption Key) cannot be empty")) ∧
    (∀ msg, encrypt E p dek iv ≠ .error (.encryptionFailed msg)) := by
  unfold encrypt
  by_cases hp : p.length = 0
  · rw [if_pos hp]
    refine ⟨⟨fun _ => Or.inl hp, fun _ => ⟨_, rfl⟩⟩, fun _ => rfl,
      fun hnp _ => absurd hp hnp, fun msg hcon => ?_⟩
    simp at hcon
  · rw [if_neg hp]
    by_cases hk : dekEmpty dek = true
    · rw [if_pos hk]
      refine ⟨⟨fun _ => Or.inr hk, fun _ => ⟨_, rfl⟩⟩, fun h => absurd h hp,
        fun _ _ => rfl, fun msg hcon => ?_⟩
      simp at hcon
    · rw [if_neg hk]
      refine ⟨⟨?_, ?_⟩, fun h => absurd h hp, fun _ h => absurd h hk,
        fun msg hcon => ?_⟩
      · rintro ⟨msg, hcon⟩
        simp at hcon
      · rintro (h | h)
        · exact absurd h hp
        · exact absurd h hk
      · simp at hcon

/-- Witness for C6: empty plaintext is rejected with the empty-plaintext
message. -/
theorem encrypt_invalid_input_witness :
    encrypt xorEngine [] (DEK.bytes [1]) iv0 =
      .error (.invalidInput "Data to encrypt cannot be empty") :=
  (encrypt_invalid_input xorEngine [] (DEK.bytes [1]) iv0).2.1 rfl

/-- Claim C7: `decrypt` fails with `InvalidInput` for every envelope of
length at most 16 regardless of the key, and for every longer envelope
with empty key material, before any key derivation or cipher work. -/
theorem decrypt_invalid_input (E : Engine) (env : List Nat) (dek : DEK) :
    (env.length ≤ 16 →
      decrypt E env dek =
        .error (.invalidInput "Encrypted data is too short or empty (must be > 16 bytes)")) ∧
    (16 < env.length → dekEmpty dek = true →
      decrypt E env dek =
        .error (.invalidInput "DEK (Data Encryption Key) cannot be empty")) := by
  constructor
  · intro h
    rw [decrypt, if_pos (by simpa [ivLength] using h)]
  · intro h hk
    rw [decrypt, if_neg (by simp only [ivLength]; omega), if_pos hk]

/-- Witness for C7: a 3-byte envelope is rejected as too short. -/
theorem decrypt_invalid_input_witness :
    decrypt xorEngine [1, 2, 3] (DEK.text "k") =
      .error (.invalidInput "Encrypted data is too short or empty (must be > 16 bytes)") :=
  (decrypt_invalid_input xorEngine [1, 2, 3] (DEK.text "k")).1 (by decide)

/-- Claim C10: when several preconditions are violated at once the checks
fire in a fixed order — the data/envelope check precedes the key-material
check: `encrypt` with empty plaintext and empty key reports the
empty-plaintext error, and `decrypt` with a short envelope and empty key
reports the envelope-too-short error. -/
theorem validation_order (E : Engine) (dek : DEK) (iv env : List Nat)
    (_hk : dekEmpty dek = true) (henv : env.length ≤ 16) :
    encrypt E [] dek iv = .error (.invalidInput "Data to encrypt cannot be empty") ∧
    decrypt E env dek =
      .error (.invalidInput "Encrypted data is too short or empty (must be > 16 bytes)") := by
  constructor
  · rw [encrypt]
    rfl
  · rw [decrypt, if_pos (by simpa [ivLength] using henv)]

/-- Witness for C10 with an empty byte key and an empty envelope. -/
theorem validation_order_witness :
    encrypt xorEngine [] (DEK.bytes []) iv0 =
      .error (.invalidInput "Data to encrypt cannot be empty") ∧
    decrypt xorEngine [] (DEK.bytes []) =
      .error (.invalidInput "Encrypted data is too short or empty (must be > 16 bytes)") :=
  validation_order xorEngine (DEK.bytes []) iv0 [] (by decide) (by decide)

/-- Claim C2: for valid inputs, `decrypt` equals the reference composition
"split into `iv = envelope[0:16]` / `ciphertext = envelope[16:]`, derive
the key as the hash of the key-material bytes, reference CBC-decrypt,
validate and strip PKCS7", and `encrypt` under a given IV equals reference
CBC/PKCS7 encryption under the derived key prefixed by the IV — the
envelope is a plain standard CBC envelope, interoperable in both
directions. -/
theorem cipher_refines_reference (E : Engine) (hE : EngineSpec E) (dek : DEK)
    (hk : dekEmpty dek = false) :
    (∀ env : List Nat, 16 < env.length →
      decrypt E env dek =
        match refDecrypt E env dek with
        | some p => .ok p
        | none => .error (.decryptionFailed decryptFailMsg)) ∧
    (∀ (p iv : List Nat), p.length ≠ 0 →
      encrypt E p dek iv = .ok (refEncrypt E (deriveKey E dek) iv p)) := by
  constructor
  · intro env hlen
    rw [decrypt_split E env dek hlen hk]
    have hiv : (env.take 16).length = 16 := by
      rw [List.length_take]
      omega
    rw [nodeCbcDecrypt_eq_ref E hE _ _ _ hiv]
    rfl
  · intro p iv hp
    rw [encrypt_eq_ok E p dek iv hp hk, refEncrypt, ← cbcEncBlocks_eq_ref]
    rfl

/-- Witness for C2 at concrete inputs, in both directions. -/
theorem cipher_refines_reference_witness :
    (decrypt xorEngine (List.replicate 32 5) (DEK.text "k") =
      match refDecrypt xorEngine (List.replicate 32 5) (DEK.text "k") with
      | some p => .ok p
      | none => .error (.decryptionFailed decryptFailMsg)) ∧
    encrypt xorEngine [1, 2] (DEK.text "k") iv0 =
      .ok (refEncrypt xorEngine (deriveKey xorEngine (DEK.text "k")) iv0 [1, 2]) :=
  ⟨(cipher_refines_reference xorEngine xorEngineSpec (DEK.text "k") (by decide)).1
      (List.replicate 32 5) (by decide),
    (cipher_refines_reference xorEngine xorEngineSpec (DEK.text "k") (by decide)).2
      [1, 2] iv0 (by decide)⟩

/-- Claim C5 counterexample: the claim "decrypt(encrypt(p, k1), k2) fails
with DecryptionFailed whenever k1 ≠ k2" is false: the text key "ab" and the
byte key [97, 98] are different key materials, yet the envelope encrypted
under one decrypts successfully under the other, because both normalize to
the same bytes and hence derive the same key. -/
theorem key_sensitivity_counterexample :
    DEK.text "ab" ≠ DEK.bytes [97, 98] ∧
    (encrypt xorEngine [10, 20, 30] (DEK.text "ab") iv0).bind
      (fun env => decrypt xorEngine env (DEK.bytes [97, 98])) = .ok [10, 20, 30] := by
  constructor
  · decide
  · rw [encrypt_eq_ok xorEngine [10, 20, 30] (DEK.text "ab") iv0 (by decide) (by decide)]
    exact decrypt_encrypt_cross xorEngine xorEngineSpec [10, 20, 30] (DEK.text "ab")
      (DEK.bytes [97, 98]) iv0 (by decide) (by decide) (by decide)

/-- Claim C5 (amended): `decrypt (encrypt p k1) k2` succeeds with `p`
whenever `k1` and `k2` derive the same key (which can happen for
`k1 ≠ k2`, e.g. a text key and its UTF-8 byte encoding); its outcome is
fully characterized by the PKCS7 check on the mis-keyed CBC decryption:
it fails exactly when that decryption does not end in valid PKCS7
padding — the typical wrong-key case — and otherwise returns whatever
the padding strip yields; when it fails, the error is always
`DecryptionFailed` with the one generic message, never another kind. -/
theorem key_sensitivity_amended (E : Engine) (hE : EngineSpec E) (p : List Nat)
    (k1 k2 : DEK) (iv : List Nat) (hp : p.length ≠ 0) (hk1 : dekEmpty k1 = false)
    (hk2 : dekEmpty k2 = false) (hiv : iv.length = 16) :
    (deriveKey E k1 = deriveKey E k2 →
      (encrypt E p k1 iv).bind (fun env => decrypt E env k2) = .ok p) ∧
    ((encrypt E p k1 iv).bind (fun env => decrypt E env k2) =
      match pkcs7Unpad (cbcDecBlocks E (deriveKey E k2) iv
          (chunks16 (nodeCbcEncrypt E (deriveKey E k1) iv p))).flatten with
      | some q => .ok q
      | none => .error (.decryptionFailed decryptFailMsg)) ∧
    (∀ e, (encrypt E p k1 iv).bind (fun env => decrypt E env k2) = .error e →
      e = .decryptionFailed decryptFailMsg) := by
  have henc := encrypt_eq_ok E p k1 iv hp hk1
  have hct : (nodeCbcEncrypt E (deriveKey E k1) iv p).length = (pkcs7Pad p).length :=
    nodeCbcEncrypt_length E hE _ iv p hiv
  have hpadlen := pkcs7Pad_length_ge p
  have henvlen : 16 < (iv ++ nodeCbcEncrypt E (deriveKey E k1) iv p).length := by
    rw [List.length_append, hiv]
    omega
  have hbind : (encrypt E p k1 iv).bind (fun env => decrypt E env k2) =
      decrypt E (iv ++ nodeCbcEncrypt E (deriveKey E k1) iv p) k2 := by
    rw [henc]
    rfl
  rw [hbind]
  have hchar : decrypt E (iv ++ nodeCbcEncrypt E (deriveKey E k1) iv p) k2 =
      match pkcs7Unpad (cbcDecBlocks E (deriveKey E k2) iv
          (chunks16 (nodeCbcEncrypt E (deriveKey E k1) iv p))).flatten with
      | some q => .ok q
      | none => .error (.decryptionFailed decryptFailMsg) := by
    rw [decrypt_split E _ k2 henvlen hk2, List.take_left' hiv, List.drop_left' hiv,
      nodeCbcDecrypt, if_pos (by rw [hct]; exact pkcs7Pad_length_mod p)]
  refine ⟨fun hkeq => decrypt_encrypt_cross E hE p k1 k2 iv hk2 hiv hkeq, hchar, ?_⟩
  intro e he
  rw [hchar] at he
  rcases hnd : pkcs7Unpad (cbcDecBlocks E (deriveKey E k2) iv
      (chunks16 (nodeCbcEncrypt E (deriveKey E k1) iv p))).flatten with _ | q
  · rw [hnd] at he
    exact (Except.error.inj he).symm
  · rw [hnd] at he
    simp at he

/-- Witness for the amended C5: two 16-byte byte keys differing in the
last byte; the mis-keyed CBC decryption ends in invalid padding, so the
characterization yields the generic `DecryptionFailed` error. -/
theorem key_sensitivity_amended_witness :
    (encrypt xorEngine [1, 2, 3, 4, 5] (DEK.bytes (List.replicate 16 1)) iv0).bind
      (fun env => decrypt xorEngine env
        (DEK.bytes (List.replicate 15 1 ++ [2]))) =
      .error (.decryptionFailed decryptFailMsg) := by
  have h := (key_sensitivity_amended xorEngine xorEngineSpec [1, 2, 3, 4, 5]
    (DEK.bytes (List.replicate 16 1)) (DEK.bytes (List.replicate 15 1 ++ [2])) iv0
    (by decide) (by decide) (by decide) (by decide)).2.1
  have hnone : pkcs7Unpad (cbcDecBlocks xorEngine
      (deriveKey xorEngine (DEK.bytes (List.replicate 15 1 ++ [2]))) iv0
      (chunks16 (nodeCbcEncrypt xorEngine
        (deriveKey xorEngine (DEK.bytes (List.replicate 16 1))) iv0
        [1, 2, 3, 4, 5]))).flatten = none := by decide
  rw [h, hnone]

/-- Claim C8: a successful `encrypt p k` returns an envelope whose first
16 bytes are exactly the IV supplied by the random source for that call
and whose remainder is the ciphertext, of positive length that is a
multiple of 16; consequently two successful calls with distinct IVs return
distinct envelopes. -/
theorem envelope_layout (E : Engine) (hE : EngineSpec E) (p : List Nat) (dek : DEK)
    (iv : List Nat) (hp : p.length ≠ 0) (hk : dekEmpty dek = false)
    (hiv : iv.length = 16) :
    ∃ ct, encrypt E p dek iv = .ok (iv ++ ct) ∧
      (iv ++ ct).take 16 = iv ∧ (iv ++ ct).drop 16 = ct ∧
      ct.length % 16 = 0 ∧ 0 < ct.length ∧
      (∀ (p2 : List Nat) (dek2 : DEK) (iv2 env2 : List Nat), iv2.length = 16 →
        iv ≠ iv2 → encrypt E p2 dek2 iv2 = .ok env2 → iv ++ ct ≠ env2) := by
  refine ⟨nodeCbcEncrypt E (deriveKey E dek) iv p, encrypt_eq_ok E p dek iv hp hk,
    List.take_left' hiv, List.drop_left' hiv, ?_, ?_, ?_⟩
  · rw [nodeCbcEncrypt_length E hE _ iv p hiv]
    exact pkcs7Pad_length_mod p
  · rw [nodeCbcEncrypt_length E hE _ iv p hiv]
    have := pkcs7Pad_length_ge p
    omega
  · intro p2 dek2 iv2 env2 hiv2 hne henc2 hcon
    unfold encrypt at henc2
    by_cases h2 : p2.length = 0
    · rw [if_pos h2] at henc2
      simp at henc2
    · rw [if_neg h2] at henc2
      by_cases h3 : dekEmpty dek2 = true
      · rw [if_pos h3] at henc2
        simp at henc2
      · rw [if_neg h3] at henc2
        have henv2 : env2 = iv2 ++ nodeCbcEncrypt E (deriveKey E dek2) iv2 p2 :=
          (Except.ok.inj henc2).symm
        rw [henv2] at hcon
        have h4 := congrArg (List.take 16) hcon
        rw [List.take_left' hiv, List.take_left' hiv2] at h4
        exact hne h4

/-- Witness for C8 at a concrete plaintext, key and IV. -/
theorem envelope_layout_witness :
    ∃ ct, encrypt xorEngine [5] (DEK.text "k") iv0 = .ok (iv0 ++ ct) ∧
      (iv0 ++ ct).take 16 = iv0 ∧ (iv0 ++ ct).drop 16 = ct ∧
      ct.length % 16 = 0 ∧ 0 < ct.length ∧
      (∀ (p2 : List Nat) (dek2 : DEK) (iv2 env2 : List Nat), iv2.length = 16 →
        iv0 ≠ iv2 → encrypt xorEngine p2 dek2 iv2 = .ok env2 → iv0 ++ ct ≠ env2) :=
  envelope_layout xorEngine xorEngineSpec [5] (DEK.text "k") iv0
    (by decide) (by decide) (by decide)

/-- Claim C9: key derivation is pure and deterministic, always yields
exactly 32 bytes, and a textual key is equivalent to its UTF-8 byte
encoding: `deriveKey (text s) = deriveKey (bytes (utf8 s))`, so envelopes
encrypted under the one decrypt under the other and vice versa. -/
theorem derive_key_text_bytes (E : Engine) (hE : EngineSpec E) (s : String)
    (p iv : List Nat) (hs : s.length ≠ 0) (hp : p.length ≠ 0)
    (hiv : iv.length = 16) :
    (∀ dek : DEK, (deriveKey E dek).length = 32) ∧
    deriveKey E (DEK.text s) = deriveKey E (DEK.bytes (utf8Bytes s)) ∧
    (encrypt E p (DEK.text s) iv).bind
      (fun env => decrypt E env (DEK.bytes (utf8Bytes s))) = .ok p ∧
    (encrypt E p (DEK.bytes (utf8Bytes s)) iv).bind
      (fun env => decrypt E env (DEK.text s)) = .ok p := by
  have hkeq : deriveKey E (DEK.text s) = deriveKey E (DEK.bytes (utf8Bytes s)) := rfl
  have hkt : dekEmpty (DEK.text s) = false := by
    simp only [dekEmpty, beq_eq_false_iff_ne, ne_eq]
    exact hs
  have hkb : dekEmpty (DEK.bytes (utf8Bytes s)) = false := by
    simp only [dekEmpty, beq_eq_false_iff_ne, ne_eq]
    intro hcon
    exact utf8Bytes_ne_nil s hs (List.length_eq_zero.mp hcon)
  refine ⟨fun dek => hE.hash_len _, hkeq, ?_, ?_⟩
  · rw [encrypt_eq_ok E p _ iv hp hkt]
    exact decrypt_encrypt_cross E hE p _ _ iv hkb hiv hkeq
  · rw [encrypt_eq_ok E p _ iv hp hkb]
    exact decrypt_encrypt_cross E hE p _ _ iv hkt hiv hkeq.symm

/-- Witness for C9 with the key "key" and a concrete plaintext. -/
theorem derive_key_text_bytes_witness :
    (∀ dek : DEK, (deriveKey xorEngine dek).length = 32) ∧
    deriveKey xorEngine (DEK.text "key") =
      deriveKey xorEngine (DEK.bytes (utf8Bytes "key")) ∧
    (encrypt xorEngine [1, 2] (DEK.text "key") iv0).bind
      (fun env => decrypt xorEngine env (DEK.bytes (utf8Bytes "key"))) = .ok [1, 2] ∧
    (encrypt xorEngine [1, 2] (DEK.bytes (utf8Bytes "key")) iv0).bind
      (fun env => decrypt xorEngine env (DEK.text "key")) = .ok [1, 2] :=
  derive_key_text_bytes xorEngine xorEngineSpec "key" [1, 2] iv0
    (by decide) (by decide) (by decide)
